import Mathlib

/-!
Shallow embedding of a Kubernetes job prometheus exporter
(`kubernetes-prometheus-exporter.py`) and verification of its
specification.

Modelling conventions:
- Timestamps are integers (seconds); the Python code compares and subtracts
  timezone-aware datetimes, which behave as points on a totally ordered
  time line with integer-like subtraction for our purposes.
- A Python dict is modelled as an association list in insertion order
  (Python dicts iterate in insertion order); lookups take the first match
  (keys are unique under insertion-only-if-absent discipline).
- Nullable fields (`labels`, `active`, `succeeded`, `start_time`,
  `completion_time`) are `Option`s: `none` models Python `None`.
- A Python exception is modelled with `Except String`: an `.error`
  result means the corresponding Python code raises and the exception
  propagates (no handler exists at that level in the source).
-/

/-- Job status fields, from the Kubernetes job record as the code reads them:
`active`, `succeeded` are nullable integer counts; `start_time` and
`completion_time` are nullable timestamps (seconds). -/
structure JobStatus where
  active : Option Int
  succeeded : Option Int
  start_time : Option Int
  completion_time : Option Int
deriving DecidableEq, Repr

/-- Job metadata as the code reads it: `name` (identity), a creation
timestamp, and a nullable label mapping (assoc list in insertion order). -/
structure JobMetadata where
  name : String
  creation_timestamp : Int
  labels : Option (List (String × String))
deriving DecidableEq, Repr

/-- A job record from the external API. -/
structure Job where
  metadata : JobMetadata
  status : JobStatus
deriving DecidableEq, Repr

/-- Model of `JOB_CACHE`: a dict keyed by job name, insertion ordered. -/
abbrev Cache := List (String × Job)

/-- Python `key in dict` membership test on a label mapping. -/
def labelMem (labels : List (String × String)) (k : String) : Bool :=
  labels.any (fun p => p.1 = k)

/-- Python `labels[k]` lookup, `none` when the key is missing (KeyError). -/
def lookupLabel (labels : List (String × String)) (k : String) : Option String :=
  (labels.find? (fun p => p.1 = k)).map (fun p => p.2)

/-- Model of `cache_job(job)` from the source:
```
def cache_job(job):
    if job.metadata.name not in JOB_CACHE:
        if job.status.active == 1:
            return
        if JOB_LABEL not in job.metadata.labels:
            return
        JOB_CACHE[job.metadata.name] = job
```
The membership test `JOB_LABEL not in job.metadata.labels` raises a
TypeError when `labels` is `None`; dict insertion appends at the end. -/
def cache_job (jobLabel : String) (cache : Cache) (job : Job) : Except String Cache :=
  if cache.any (fun p => p.1 = job.metadata.name) then .ok cache
  else if job.status.active = some 1 then .ok cache
  else
    match job.metadata.labels with
    | none => .error "TypeError"
    | some ls =>
      if labelMem ls jobLabel then .ok (cache ++ [(job.metadata.name, job)])
      else .ok cache

/-- The `for job in data: cache_job(job)` loop of `retrieve_jobs`: each
fetched job is admitted in turn; an exception stops the loop, keeping the
mutations already made (the cache is a global mutated in place). -/
def cache_all (jobLabel : String) : Cache → List Job → Cache × Option String
  | c, [] => (c, none)
  | c, j :: rest =>
    match cache_job jobLabel c j with
    | .error e => (c, some e)
    | .ok c2 => cache_all jobLabel c2 rest

/-- The eligibility filter of `retrieve_jobs`: iterate `JOB_CACHE.values()`
and skip jobs with `creation_timestamp < START`. -/
def eligible_filter (cache : Cache) (start : Int) : List Job :=
  (cache.map (fun p => p.2)).filter (fun j => !decide (j.metadata.creation_timestamp < start))

/-- Model of `retrieve_jobs(namespace, batch_v1_api)` from the source: the external
list call either fails (ApiException, caught: `data = []`) or returns a
list of jobs; each is fed to `cache_job`, then the cached jobs at or after
`START` are returned. The returned pair is (cache after the call, result);
an `.error` result is an uncaught exception from `cache_job`. -/
def retrieve_jobs (jobLabel : String) (start : Int) (cache : Cache)
    (fetched : Except Unit (List Job)) : Cache × Except String (List Job) :=
  let data := match fetched with
    | .error _ => []
    | .ok js => js
  match cache_all jobLabel cache data with
  | (c, some e) => (c, .error e)
  | (c, none) => (c, .ok (eligible_filter c start))

/-- Model of `get_app_labels(jobs)` from the source: partition `jobs` by the value
of the classification label, building a dict from label value to job list
in first-appearance order; `job.metadata.labels[JOB_LABEL]` raises when the
mapping is `None` (TypeError) or the key is absent (KeyError). `acc` is the
`labels` dict being built. -/
def addToGroups (groups : List (String × List Job)) (l : String) (j : Job) :
    List (String × List Job) :=
  match groups with
  | [] => [(l, [j])]
  | (k, js) :: rest =>
    if k = l then (k, js ++ [j]) :: rest else (k, js) :: addToGroups rest l j

def get_app_labels (jobLabel : String) :
    List Job → List (String × List Job) → Except String (List (String × List Job))
  | [], acc => .ok acc
  | j :: rest, acc =>
    match j.metadata.labels.bind (fun ls => lookupLabel ls jobLabel) with
    | none => .error "LookupError"
    | some l => get_app_labels jobLabel rest (addToGroups acc l j)

/-- Model of `kubernetes_jobs_total(jobs)` from the source: one `(len(group), label)`
pair per label group. -/
def kubernetes_jobs_total (jobLabel : String) (jobs : List Job) :
    Except String (List (Nat × String)) :=
  match get_app_labels jobLabel jobs [] with
  | .error e => .error e
  | .ok groups => .ok (groups.map (fun g => (g.2.length, g.1)))

/-- A histogram bucket boundary: a finite boundary in seconds, or
the string `"+Inf"` appended by the code (`float("+Inf")` compares as
positive infinity: every duration is strictly below it). -/
inductive Bucket where
  | finite (n : Nat)
  | inf
deriving DecidableEq, Repr

/-- Model of `DURATION_BUCKETS` from the source, in seconds. -/
def DURATION_BUCKETS : List Nat := [10, 30, 60, 180, 480, 1200, 3600, 7200]

/-- The list `DURATION_BUCKETS + ["+Inf"]` as built in `find_applicable_buckets`
and `kubernetes_job_duration_seconds`. -/
def allBuckets : List Bucket := DURATION_BUCKETS.map Bucket.finite ++ [Bucket.inf]

/-- The test `duration < float(bucket)` of `find_applicable_buckets`:
a finite boundary compares numerically, and `float("+Inf")` is above
every duration. -/
def durationLtBucket (d : Int) : Bucket → Bool
  | .finite n => decide (d < (n : Int))
  | .inf => true

/-- Model of `find_applicable_buckets(duration)` from the source: yields every
bucket (in ascending order, `"+Inf"` last) whose boundary strictly
exceeds `duration`. -/
def find_applicable_buckets (d : Int) : List Bucket :=
  allBuckets.filter (durationLtBucket d)

/-- The `buckets_dict` initialisation of `kubernetes_job_duration_seconds`:
every bucket (including `"+Inf"`) mapped to zero, in boundary order. -/
def initBuckets : List (Bucket × Nat) := allBuckets.map (fun b => (b, 0))

/-- Model of `buckets_dict[bucket] += 1`: increment the entry for `b`. -/
def incBucket (m : List (Bucket × Nat)) (b : Bucket) : List (Bucket × Nat) :=
  m.map (fun p => if p.1 = b then (p.1, p.2 + 1) else p)

/-- The loop `for bucket in find_applicable_buckets(duration): buckets_dict[bucket] += 1`,
for an arbitrary bucket list. -/
def incBuckets (m : List (Bucket × Nat)) (bs : List Bucket) : List (Bucket × Nat) :=
  bs.foldl incBucket m

/-- Model of `(job.status.completion_time - job.status.start_time).total_seconds()`:
subtracting with a `None` operand raises a TypeError; otherwise the signed
difference in seconds (which can be negative). -/
def jobDuration (j : Job) : Except String Int :=
  match j.status.completion_time, j.status.start_time with
  | some c, some s => .ok (c - s)
  | _, _ => .error "TypeError"

/-- The inner `for job in jobs` loop of `kubernetes_job_duration_seconds`
over one label group: accumulate each job's duration into the running sum
and bump every applicable bucket; a job with a missing timestamp raises
out of the loop. -/
def processGroup : List Job → List (Bucket × Nat) → Int →
    Except String (List (Bucket × Nat) × Int)
  | [], m, s => .ok (m, s)
  | j :: rest, m, s =>
    match jobDuration j with
    | .error e => .error e
    | .ok d => processGroup rest (incBuckets m (find_applicable_buckets d)) (s + d)

/-- The outer `for app, jobs in get_app_labels(app_jobs).items()` loop of
`kubernetes_job_duration_seconds`: yield, per label group, the bucket
list (in boundary order, cumulative counts), the duration sum, and the
label value. -/
def processGroups : List (String × List Job) →
    Except String (List (List (Bucket × Nat) × Int × String))
  | [] => .ok []
  | (app, jobs) :: rest =>
    match processGroup jobs initBuckets 0 with
    | .error e => .error e
    | .ok (m, s) =>
      match processGroups rest with
      | .error e => .error e
      | .ok out => .ok ((m, s, app) :: out)

/-- Model of `kubernetes_job_duration_seconds(app_jobs)` from the source. -/
def kubernetes_job_duration_seconds (jobLabel : String) (app_jobs : List Job) :
    Except String (List (List (Bucket × Nat) × Int × String)) :=
  match get_app_labels jobLabel app_jobs [] with
  | .error e => .error e
  | .ok groups => processGroups groups

/-- The three metric families published by one scrape: data of
`kubernetes_jobs_total`, `kubernetes_job_errors_total` and
`kubernetes_job_duration_seconds`. -/
structure Snapshot where
  jobs_total : List (Nat × String)
  job_errors_total : List (Nat × String)
  job_duration_seconds : List (List (Bucket × Nat) × Int × String)
deriving DecidableEq, Repr

/-- The metric-family construction of `scrape()`: totals over all eligible
jobs, errors over jobs with `succeeded != 1`, durations over jobs with
`succeeded == 1` (Python `None != 1` is true). -/
def compute_families (jobLabel : String) (jobs : List Job) : Except String Snapshot :=
  match kubernetes_jobs_total jobLabel jobs with
  | .error e => .error e
  | .ok tot =>
    match kubernetes_jobs_total jobLabel
        (jobs.filter (fun j => !decide (j.status.succeeded = some 1))) with
    | .error e => .error e
    | .ok errs =>
      match kubernetes_job_duration_seconds jobLabel
          (jobs.filter (fun j => decide (j.status.succeeded = some 1))) with
      | .error e => .error e
      | .ok durs => .ok ⟨tot, errs, durs⟩

/-- Model of `scrape()` from the source: fetch (a failure is caught and treated as
zero jobs), admit each fetched job into the cache, select eligible jobs,
build the three metric families, and publish them (`metrics.update` with
exactly the three keys). Returns the cache after the cycle and either the
published snapshot or the uncaught exception that aborted the cycle before
publishing. -/
def scrape (jobLabel : String) (start : Int) (cache : Cache)
    (fetched : Except Unit (List Job)) : Cache × Except String Snapshot :=
  match retrieve_jobs jobLabel start cache fetched with
  | (c, .error e) => (c, .error e)
  | (c, .ok jobs) => (c, compute_families jobLabel jobs)

/-- The durations of a list of jobs, in order: `none` when some job is
missing a timestamp (in which case the Python loop raises at that job). -/
def jobDurations : List Job → Option (List Int)
  | [] => some []
  | j :: rest =>
    match jobDuration j with
    | .error _ => none
    | .ok d => (jobDurations rest).map (fun ds => d :: ds)

/-- Concatenation of the applicable-bucket lists of a list of durations:
the multiset of `buckets_dict` increments a group performs. -/
def fabJoin : List Int → List Bucket
  | [] => []
  | d :: ds => find_applicable_buckets d ++ fabJoin ds

/-- Boundary order on buckets (`"+Inf"` is the greatest). -/
def bucketLE (a b : Bucket) : Bool :=
  match a, b with
  | .finite m, .finite n => decide (m ≤ n)
  | .finite _, .inf => true
  | .inf, .finite _ => false
  | .inf, .inf => true

/-- Invariant of `JOB_CACHE`: every stored record carries the
classification label key in its (non-null) labels. -/
def cacheInv (jobLabel : String) (c : Cache) : Prop :=
  ∀ p ∈ c, ∃ ls, p.2.metadata.labels = some ls ∧ labelMem ls jobLabel = true

/-- A succeeded job with both timestamps (duration 45 s). -/
def jGood : Job := ⟨⟨"g", 5, some [("app", "foo")]⟩, ⟨some 0, some 1, some 100, some 145⟩⟩

/-- A job marked succeeded but missing its completion timestamp. -/
def jMissing : Job := ⟨⟨"m", 5, some [("app", "foo")]⟩, ⟨some 0, some 1, some 100, none⟩⟩

/-- A job marked succeeded whose completion timestamp precedes its start
timestamp (duration −5 s). -/
def jNeg : Job := ⟨⟨"n", 5, some [("app", "foo")]⟩, ⟨some 0, some 1, some 100, some 95⟩⟩

/-! ## Helper lemmas -/

lemma cache_any_iff (cache : Cache) (n : String) :
    (cache.any (fun p => p.1 = n) = true) ↔ n ∈ cache.map Prod.fst := by
  constructor
  · intro h
    obtain ⟨p, hp, he⟩ := List.any_eq_true.mp h
    exact List.mem_map.mpr ⟨p, hp, of_decide_eq_true he⟩
  · intro h
    obtain ⟨p, hp, he⟩ := List.mem_map.mp h
    exact List.any_eq_true.mpr ⟨p, hp, decide_eq_true he⟩

lemma cache_job_eq (jobLabel : String) (cache : Cache) (job : Job)
    (ls : List (String × String)) (h : job.metadata.labels = some ls) :
    cache_job jobLabel cache job =
      if job.metadata.name ∈ cache.map Prod.fst then .ok cache
      else if job.status.active = some 1 then .ok cache
      else if labelMem ls jobLabel then .ok (cache ++ [(job.metadata.name, job)])
      else .ok cache := by
  simp only [cache_job, h, cache_any_iff]

lemma cache_job_none_eq (jobLabel : String) (cache : Cache) (job : Job)
    (h : job.metadata.labels = none) :
    cache_job jobLabel cache job =
      if job.metadata.name ∈ cache.map Prod.fst then .ok cache
      else if job.status.active = some 1 then .ok cache
      else .error "TypeError" := by
  simp only [cache_job, h, cache_any_iff]

lemma cache_job_mono (jobLabel : String) (cache c2 : Cache) (job : Job)
    (h : cache_job jobLabel cache job = .ok c2) : ∀ e ∈ cache, e ∈ c2 := by
  intro e he
  cases hl : job.metadata.labels with
  | none =>
    rw [cache_job_none_eq jobLabel cache job hl] at h
    split_ifs at h
    · cases Except.ok.inj h; exact he
    · cases Except.ok.inj h; exact he
  | some ls =>
    rw [cache_job_eq jobLabel cache job ls hl] at h
    split_ifs at h <;> cases Except.ok.inj h
    · exact he
    · exact he
    · exact List.mem_append_left _ he
    · exact he

lemma cache_all_mono (jobLabel : String) :
    ∀ (data : List Job) (cache : Cache), ∀ e ∈ cache, e ∈ (cache_all jobLabel cache data).1 := by
  intro data
  induction data with
  | nil => intro cache e he; exact he
  | cons j rest ih =>
    intro cache e he
    show e ∈ (match cache_job jobLabel cache j with
      | .error err => (cache, some err)
      | .ok c2 => cache_all jobLabel c2 rest).1
    cases hcj : cache_job jobLabel cache j with
    | error err => simpa using he
    | ok c2 => simpa using ih c2 e (cache_job_mono jobLabel cache c2 j hcj e he)

/-! ## Claim theorems: the job cache -/

/-- C2. `cache_job` inserts the job (appending its entry to the dict) iff
its name is absent, its `active` count is not 1 and the classification
label key is in its labels; otherwise the cache is returned unchanged
(and the appended cache is never the unchanged one). -/
theorem claim_C2 (jobLabel : String) (cache : Cache) (job : Job)
    (ls : List (String × String)) (h : job.metadata.labels = some ls) :
    (cache_job jobLabel cache job = .ok (cache ++ [(job.metadata.name, job)]) ↔
      job.metadata.name ∉ cache.map Prod.fst ∧ job.status.active ≠ some 1 ∧
        labelMem ls jobLabel = true)
    ∧ (¬ (job.metadata.name ∉ cache.map Prod.fst ∧ job.status.active ≠ some 1 ∧
        labelMem ls jobLabel = true) →
      cache_job jobLabel cache job = .ok cache)
    ∧ cache ++ [(job.metadata.name, job)] ≠ cache := by
  have hne : cache ++ [(job.metadata.name, job)] ≠ cache := by
    intro heq
    have := congrArg List.length heq
    simp at this
  rw [cache_job_eq jobLabel cache job ls h]
  by_cases h1 : job.metadata.name ∈ cache.map Prod.fst
  · rw [if_pos h1]
    exact ⟨⟨fun hc => absurd (Except.ok.inj hc).symm hne, fun hc => absurd h1 hc.1⟩,
      fun _ => rfl, hne⟩
  · rw [if_neg h1]
    by_cases h2 : job.status.active = some 1
    · rw [if_pos h2]
      exact ⟨⟨fun hc => absurd (Except.ok.inj hc).symm hne, fun hc => absurd h2 hc.2.1⟩,
        fun _ => rfl, hne⟩
    · rw [if_neg h2]
      by_cases h3 : labelMem ls jobLabel = true
      · rw [if_pos h3]
        exact ⟨⟨fun _ => ⟨h1, h2, h3⟩, fun _ => rfl⟩,
          fun hc => absurd ⟨h1, h2, h3⟩ hc, hne⟩
      · rw [if_neg h3]
        exact ⟨⟨fun hc => absurd (Except.ok.inj hc).symm hne, fun hc => absurd hc.2.2 h3⟩,
          fun _ => rfl, hne⟩

/-- C2 witness. -/
theorem claim_C2_witness :
    let job : Job := ⟨⟨"a", 5, some [("app", "foo")]⟩, ⟨some 0, some 1, some 100, some 105⟩⟩
    cache_job "app" [] job = .ok [("a", job)] := by
  have h := (claim_C2 "app" []
    ⟨⟨"a", 5, some [("app", "foo")]⟩, ⟨some 0, some 1, some 100, some 105⟩⟩
    [("app", "foo")] rfl).1.mpr (by decide)
  simpa using h

/-- C3. Re-admission of an identity already in the cache is a no-op:
`cache_job` returns the cache unchanged (hence unchanged size and an
unchanged stored record) for any job record carrying a cached name. -/
theorem claim_C3 (jobLabel : String) (cache : Cache) (job : Job)
    (h : job.metadata.name ∈ cache.map Prod.fst) :
    cache_job jobLabel cache job = .ok cache := by
  unfold cache_job
  rw [if_pos ((cache_any_iff cache _).mpr h)]

/-- C3 witness: a later, different view of job "a" (now active, other
labels, other timestamps) does not disturb the cached record. -/
theorem claim_C3_witness :
    let job0 : Job := ⟨⟨"a", 5, some [("app", "foo")]⟩, ⟨some 0, some 1, some 100, some 105⟩⟩
    let job1 : Job := ⟨⟨"a", 5, some [("app", "bar")]⟩, ⟨some 1, none, none, none⟩⟩
    cache_job "app" [("a", job0)] job1 = .ok [("a", job0)] :=
  claim_C3 "app"
    [("a", ⟨⟨"a", 5, some [("app", "foo")]⟩, ⟨some 0, some 1, some 100, some 105⟩⟩)]
    ⟨⟨"a", 5, some [("app", "bar")]⟩, ⟨some 1, none, none, none⟩⟩ (by decide)

/-- C10. When the job's labels field is an actual mapping, `cache_job`
never raises and either leaves the cache unchanged or appends exactly that
job's entry; when the labels field is null and the name is uncached with
`active != 1`, the membership test raises a TypeError instead of skipping. -/
theorem claim_C10 (jobLabel : String) (cache : Cache) (job : Job) :
    (∀ ls, job.metadata.labels = some ls →
      cache_job jobLabel cache job = .ok cache ∨
        cache_job jobLabel cache job = .ok (cache ++ [(job.metadata.name, job)]))
    ∧ (job.metadata.labels = none → job.metadata.name ∉ cache.map Prod.fst →
        job.status.active ≠ some 1 →
        cache_job jobLabel cache job = .error "TypeError") := by
  constructor
  · intro ls hl
    rw [cache_job_eq jobLabel cache job ls hl]
    split_ifs
    · exact Or.inl rfl
    · exact Or.inl rfl
    · exact Or.inr rfl
    · exact Or.inl rfl
  · intro hl h1 h2
    rw [cache_job_none_eq jobLabel cache job hl, if_neg h1, if_neg h2]

/-- C10 witness: a labelled job is admitted without an exception; the same
job with a null labels field raises. -/
theorem claim_C10_witness :
    (cache_job "app" [] ⟨⟨"f", 5, none⟩, ⟨some 0, some 1, some 100, some 105⟩⟩ =
      .error "TypeError")
    ∧ (cache_job "app" [] ⟨⟨"a", 5, some []⟩, ⟨some 0, some 1, some 100, some 105⟩⟩ =
        .ok [] ∨
      cache_job "app" [] ⟨⟨"a", 5, some []⟩, ⟨some 0, some 1, some 100, some 105⟩⟩ =
        .ok [("a", ⟨⟨"a", 5, some []⟩, ⟨some 0, some 1, some 100, some 105⟩⟩)]) :=
  ⟨(claim_C10 "app" [] ⟨⟨"f", 5, none⟩, ⟨some 0, some 1, some 100, some 105⟩⟩).2
      rfl (by decide) (by decide),
    (claim_C10 "app" [] ⟨⟨"a", 5, some []⟩, ⟨some 0, some 1, some 100, some 105⟩⟩).1
      [] rfl⟩

/-! ## Claim theorems: eligibility -/

/-- C4. A successful `retrieve_jobs` returns exactly the cached jobs (of
the post-admission cache) whose creation timestamp is at or after `start`;
every prior cache entry is still in the cache, so a job created before
`start` stays cached while being excluded from the working set that feeds
all three metric families. -/
theorem claim_C4 (jobLabel : String) (start : Int) (cache c2 : Cache)
    (fetched : Except Unit (List Job)) (js : List Job)
    (h : retrieve_jobs jobLabel start cache fetched = (c2, .ok js)) :
    (∀ j, j ∈ js ↔ j ∈ c2.map Prod.snd ∧ start ≤ j.metadata.creation_timestamp)
    ∧ ∀ e ∈ cache, e ∈ c2 := by
  obtain ⟨data, hd⟩ : ∃ data,
      (match fetched with | Except.error _ => [] | Except.ok js => js) = data := ⟨_, rfl⟩
  simp only [retrieve_jobs] at h
  rw [hd] at h
  split at h
  · simp at h
  · rename_i c' heq
    simp only [Prod.mk.injEq, Except.ok.injEq] at h
    obtain ⟨hc, hjs⟩ := h
    subst hc
    subst hjs
    constructor
    · intro j
      constructor
      · intro hj
        obtain ⟨hm, hp⟩ := List.mem_filter.mp hj
        exact ⟨hm, not_lt.mp (by simpa using hp)⟩
      · intro hj
        exact List.mem_filter.mpr ⟨hj.1, by simpa using not_lt.mpr hj.2⟩
    · intro e he
      have hmem := cache_all_mono jobLabel data cache e he
      rw [heq] at hmem
      exact hmem

/-- C4 witness: a cache holding one job created at time 3 and one at
time 7, scraped with a failing fetch and `start = 5`: only the later job
is returned, both stay cached. -/
theorem claim_C4_witness :
    let jOld : Job := ⟨⟨"old", 3, some [("app", "foo")]⟩, ⟨some 0, some 1, some 100, some 105⟩⟩
    let jNew : Job := ⟨⟨"new", 7, some [("app", "foo")]⟩, ⟨some 0, some 1, some 100, some 105⟩⟩
    (jOld ∈ [jNew] ↔ jOld ∈ ([("old", jOld), ("new", jNew)] : Cache).map Prod.snd ∧
      (5 : Int) ≤ 3)
    ∧ ("old", jOld) ∈ ([("old", jOld), ("new", jNew)] : Cache) := by
  intro jOld jNew
  have h := claim_C4 "app" 5 [("old", jOld), ("new", jNew)] [("old", jOld), ("new", jNew)]
    (.error ()) [jNew] (by rfl)
  exact ⟨h.1 jOld, h.2 ("old", jOld) (by decide)⟩

/-! ## Claim theorems: bucket selection -/

/-- C5. A duration `d` is assigned bucket `b` of the configured list
`[10, 30, 60, 180, 480, 1200, 3600, 7200, +Inf]` iff `d` is strictly
below the boundary (so `d` equal to a finite boundary is not counted in
that boundary's bucket), and the `+Inf` bucket always applies. -/
theorem claim_C5 (d : Int) :
    (∀ n : Nat, Bucket.finite n ∈ allBuckets →
      (Bucket.finite n ∈ find_applicable_buckets d ↔ d < (n : Int)))
    ∧ Bucket.inf ∈ find_applicable_buckets d := by
  constructor
  · intro n hn
    simp [find_applicable_buckets, List.mem_filter, hn, durationLtBucket]
  · simp [find_applicable_buckets, List.mem_filter, durationLtBucket, allBuckets]

/-- C5 witness: duration exactly 30 is not in bucket 30 but is in `+Inf`. -/
theorem claim_C5_witness :
    (Bucket.finite 30 ∈ find_applicable_buckets 30 ↔ (30 : Int) < (30 : Nat))
    ∧ Bucket.inf ∈ find_applicable_buckets 30 :=
  ⟨(claim_C5 30).1 30 (by decide), (claim_C5 30).2⟩

/-! ## Helper lemmas: histogram machinery -/

lemma allBuckets_nodup : allBuckets.Nodup := by decide

lemma allBuckets_sorted : allBuckets.Pairwise (fun a b => bucketLE a b = true) := by decide

lemma incBuckets_eq_map (bs : List Bucket) :
    ∀ m : List (Bucket × Nat), incBuckets m bs = m.map (fun p => (p.1, p.2 + bs.count p.1)) := by
  induction bs with
  | nil =>
    intro m
    simp [incBuckets]
  | cons b rest ih =>
    intro m
    show incBuckets (incBucket m b) rest = _
    rw [ih (incBucket m b)]
    unfold incBucket
    rw [List.map_map]
    refine List.map_congr_left (fun p _ => ?_)
    obtain ⟨q, c⟩ := p
    simp only [Function.comp_apply, List.count_cons, beq_iff_eq]
    by_cases hpb : q = b
    · subst hpb
      rw [if_pos rfl, if_pos rfl]
      refine Prod.ext rfl ?_
      show c + 1 + List.count q rest = c + (List.count q rest + 1)
      omega
    · rw [if_neg hpb, if_neg (fun h => hpb h.symm)]
      refine Prod.ext rfl ?_
      show c + List.count q rest = c + (List.count q rest + 0)
      omega

lemma count_fab (d : Int) (b : Bucket) (hb : b ∈ allBuckets) :
    (find_applicable_buckets d).count b = if durationLtBucket d b then 1 else 0 := by
  unfold find_applicable_buckets
  by_cases hlt : durationLtBucket d b = true
  · rw [if_pos hlt, List.count_filter hlt]
    exact List.count_eq_one_of_mem allBuckets_nodup hb
  · rw [if_neg hlt]
    refine List.count_eq_zero.mpr ?_
    intro hmem
    exact hlt (List.mem_filter.mp hmem).2

lemma count_fabJoin (b : Bucket) (hb : b ∈ allBuckets) :
    ∀ ds : List Int, (fabJoin ds).count b = ds.countP (fun d => durationLtBucket d b) := by
  intro ds
  induction ds with
  | nil => simp [fabJoin]
  | cons d rest ih =>
    show (find_applicable_buckets d ++ fabJoin rest).count b = _
    rw [List.count_append, count_fab d b hb, ih, List.countP_cons]
    exact Nat.add_comm _ _

lemma jobDuration_ok (j : Job) (d : Int) (h : jobDuration j = .ok d) :
    ∃ c s, j.status.completion_time = some c ∧ j.status.start_time = some s ∧ d = c - s := by
  rcases hc : j.status.completion_time with _ | c <;> rcases hs : j.status.start_time with _ | s <;>
    simp [jobDuration, hc, hs] at h
  exact ⟨c, s, rfl, rfl, h.symm⟩

lemma jobDurations_eq : ∀ (l : List Job) (ds : List Int), jobDurations l = some ds →
    ds = l.map (fun j => j.status.completion_time.getD 0 - j.status.start_time.getD 0) := by
  intro l
  induction l with
  | nil => intro ds h; cases Option.some.inj h; rfl
  | cons j rest ih =>
    intro ds h
    unfold jobDurations at h
    cases hd : jobDuration j with
    | error e => rw [hd] at h; simp at h
    | ok d =>
      rw [hd] at h
      cases hrest : jobDurations rest with
      | none => rw [hrest] at h; simp at h
      | some ds2 =>
        rw [hrest] at h
        simp only [Option.map_some'] at h
        cases Option.some.inj h
        obtain ⟨c, s, hc, hs, hcs⟩ := jobDuration_ok j d hd
        rw [List.map_cons, ← ih ds2 hrest, hc, hs]
        simp [hcs]

lemma processGroup_ok : ∀ (l : List Job) (m : List (Bucket × Nat)) (s : Int)
    (out : List (Bucket × Nat) × Int), processGroup l m s = .ok out →
    ∃ ds, jobDurations l = some ds ∧ out = (incBuckets m (fabJoin ds), s + ds.sum) := by
  intro l
  induction l with
  | nil =>
    intro m s out h
    cases Except.ok.inj h
    exact ⟨[], rfl, by simp [fabJoin, incBuckets]⟩
  | cons j rest ih =>
    intro m s out h
    unfold processGroup at h
    cases hd : jobDuration j with
    | error e => rw [hd] at h; simp at h
    | ok d =>
      rw [hd] at h
      obtain ⟨ds2, hds2, hout⟩ := ih _ _ _ h
      refine ⟨d :: ds2, ?_, ?_⟩
      · unfold jobDurations
        rw [hd, hds2]
        rfl
      · rw [hout]
        have h1 : incBuckets (incBuckets m (find_applicable_buckets d)) (fabJoin ds2) =
            incBuckets m (find_applicable_buckets d ++ fabJoin ds2) := by
          unfold incBuckets
          rw [List.foldl_append]
        have h2 : s + d + ds2.sum = s + (d :: ds2).sum := by
          rw [List.sum_cons]
          omega
        rw [show fabJoin (d :: ds2) = find_applicable_buckets d ++ fabJoin ds2 from rfl,
          ← h1, ← h2]

lemma processGroup_final (l : List Job) (bkts : List (Bucket × Nat)) (s : Int)
    (h : processGroup l initBuckets 0 = .ok (bkts, s)) :
    ∃ ds, jobDurations l = some ds ∧
      bkts = allBuckets.map (fun b => (b, ds.countP (fun d => durationLtBucket d b))) ∧
      s = ds.sum := by
  obtain ⟨ds, hds, hout⟩ := processGroup_ok l initBuckets 0 (bkts, s) h
  have hb : bkts = incBuckets initBuckets (fabJoin ds) := congrArg Prod.fst hout
  have hs : s = 0 + ds.sum := congrArg Prod.snd hout
  refine ⟨ds, hds, ?_, by omega⟩
  rw [hb, incBuckets_eq_map]
  unfold initBuckets
  rw [List.map_map]
  refine List.map_congr_left (fun b hbm => ?_)
  simp only [Function.comp_apply]
  rw [count_fabJoin b hbm ds]
  exact Prod.ext rfl (by omega)

lemma durationLt_mono (d : Int) (a b : Bucket) (hab : bucketLE a b = true)
    (h : durationLtBucket d a = true) : durationLtBucket d b = true := by
  cases a <;> cases b <;> simp_all [bucketLE, durationLtBucket]
  omega

lemma counts_mono (ds : List Int) (i j : Nat) (hi : i < allBuckets.length)
    (hj : j < allBuckets.length) (hij : i ≤ j) :
    ds.countP (fun d => durationLtBucket d allBuckets[i]) ≤
      ds.countP (fun d => durationLtBucket d allBuckets[j]) := by
  rcases Nat.lt_or_eq_of_le hij with hlt | heq
  · have hR := List.pairwise_iff_getElem.mp allBuckets_sorted i j hi hj hlt
    exact List.countP_mono_left (fun d _ hd => durationLt_mono d _ _ hR hd)
  · subst heq
    exact le_refl _

lemma entry_mono_inf (jobs : List Job) (bkts : List (Bucket × Nat)) (s : Int)
    (h : processGroup jobs initBuckets 0 = .ok (bkts, s)) :
    (∀ i j (hi : i < bkts.length) (hj : j < bkts.length), i ≤ j → bkts[i].2 ≤ bkts[j].2)
    ∧ bkts.getLast? = some (Bucket.inf, jobs.length) := by
  obtain ⟨ds, hds, hbk, hsum⟩ := processGroup_final jobs bkts s h
  have hlen : ds.length = jobs.length := by
    rw [jobDurations_eq jobs ds hds, List.length_map]
  subst hbk
  constructor
  · intro i j hi hj hij
    rw [List.length_map] at hi hj
    rw [List.getElem_map, List.getElem_map]
    exact counts_mono ds i j hi hj hij
  · rw [List.getLast?_map]
    have hcnt : ds.countP (fun d => durationLtBucket d Bucket.inf) = jobs.length := by
      rw [← hlen]
      exact List.countP_eq_length.mpr (fun a _ => rfl)
    have hlast : allBuckets.getLast? = some Bucket.inf := by decide
    rw [hlast, Option.map_some', hcnt]

lemma entry_sum (jobs : List Job) (bkts : List (Bucket × Nat)) (s : Int)
    (h : processGroup jobs initBuckets 0 = .ok (bkts, s)) :
    s = (jobs.map (fun j =>
      j.status.completion_time.getD 0 - j.status.start_time.getD 0)).sum := by
  obtain ⟨ds, hds, _, hsum⟩ := processGroup_final jobs bkts s h
  rw [hsum, jobDurations_eq jobs ds hds]

lemma processGroups_forall2 : ∀ (gs : List (String × List Job))
    (out : List (List (Bucket × Nat) × Int × String)), processGroups gs = .ok out →
    List.Forall₂ (fun (g : String × List Job) (o : List (Bucket × Nat) × Int × String) =>
      processGroup g.2 initBuckets 0 = .ok (o.1, o.2.1) ∧ o.2.2 = g.1) gs out := by
  intro gs
  induction gs with
  | nil =>
    intro out h
    cases Except.ok.inj h
    exact List.Forall₂.nil
  | cons g rest ih =>
    intro out h
    obtain ⟨app, jobsg⟩ := g
    unfold processGroups at h
    cases hpg : processGroup jobsg initBuckets 0 with
    | error e => rw [hpg] at h; simp at h
    | ok p =>
      obtain ⟨m, s⟩ := p
      rw [hpg] at h
      cases hrest : processGroups rest with
      | error e => rw [hrest] at h; simp at h
      | ok out2 =>
        rw [hrest] at h
        cases Except.ok.inj h
        exact List.Forall₂.cons ⟨hpg, rfl⟩ (ih out2 hrest)

/-! ## Claim theorems: histogram aggregation -/

/-- C6. For every job list fed to `kubernetes_job_duration_seconds` and
every label group it emits (paired with its source group), the cumulative
bucket counts are monotonically non-decreasing along the ascending
boundary order, and the final `+Inf` bucket count equals the number of
jobs in that group. -/
theorem claim_C6 (jobLabel : String) (jobs : List Job)
    (groups : List (String × List Job)) (out : List (List (Bucket × Nat) × Int × String))
    (hg : get_app_labels jobLabel jobs [] = .ok groups)
    (h : kubernetes_job_duration_seconds jobLabel jobs = .ok out) :
    List.Forall₂ (fun (g : String × List Job) (o : List (Bucket × Nat) × Int × String) =>
      o.2.2 = g.1 ∧
      (∀ i j (hi : i < o.1.length) (hj : j < o.1.length), i ≤ j → o.1[i].2 ≤ o.1[j].2) ∧
      o.1.getLast? = some (Bucket.inf, g.2.length)) groups out := by
  unfold kubernetes_job_duration_seconds at h
  rw [hg] at h
  refine (processGroups_forall2 groups out h).imp ?_
  rintro g o ⟨hpg, happ⟩
  have hm := entry_mono_inf g.2 o.1 o.2.1 hpg
  exact ⟨happ, hm.1, hm.2⟩

/-- C6 witness: the single 45-second job `jGood` yields the cumulative
bucket row `0,0,1,1,1,1,1,1` with `+Inf` count 1. -/
theorem claim_C6_witness :
    List.Forall₂ (fun (g : String × List Job) (o : List (Bucket × Nat) × Int × String) =>
      o.2.2 = g.1 ∧
      (∀ i j (hi : i < o.1.length) (hj : j < o.1.length), i ≤ j → o.1[i].2 ≤ o.1[j].2) ∧
      o.1.getLast? = some (Bucket.inf, g.2.length))
      [("foo", [jGood])]
      [([(Bucket.finite 10, 0), (Bucket.finite 30, 0), (Bucket.finite 60, 1),
         (Bucket.finite 180, 1), (Bucket.finite 480, 1), (Bucket.finite 1200, 1),
         (Bucket.finite 3600, 1), (Bucket.finite 7200, 1), (Bucket.inf, 1)],
        45, "foo")] :=
  claim_C6 "app" [jGood] [("foo", [jGood])]
    [([(Bucket.finite 10, 0), (Bucket.finite 30, 0), (Bucket.finite 60, 1),
       (Bucket.finite 180, 1), (Bucket.finite 480, 1), (Bucket.finite 1200, 1),
       (Bucket.finite 3600, 1), (Bucket.finite 7200, 1), (Bucket.inf, 1)],
      45, "foo")] (by rfl) (by rfl)

/-- C7. For every label group emitted by the duration aggregation over the
succeeded jobs (`succeeded == 1`), the emitted duration sum equals the
arithmetic sum of `completion_time - start_time` over exactly the jobs of
that group. -/
theorem claim_C7 (jobLabel : String) (jobs : List Job)
    (groups : List (String × List Job)) (out : List (List (Bucket × Nat) × Int × String))
    (hg : get_app_labels jobLabel
      (jobs.filter (fun j => decide (j.status.succeeded = some 1))) [] = .ok groups)
    (h : kubernetes_job_duration_seconds jobLabel
      (jobs.filter (fun j => decide (j.status.succeeded = some 1))) = .ok out) :
    List.Forall₂ (fun (g : String × List Job) (o : List (Bucket × Nat) × Int × String) =>
      o.2.2 = g.1 ∧
      o.2.1 = (g.2.map (fun j =>
        j.status.completion_time.getD 0 - j.status.start_time.getD 0)).sum) groups out := by
  unfold kubernetes_job_duration_seconds at h
  rw [hg] at h
  refine (processGroups_forall2 groups out h).imp ?_
  rintro g o ⟨hpg, happ⟩
  exact ⟨happ, entry_sum g.2 o.1 o.2.1 hpg⟩

/-- C7 witness: `jGood` (45 s) is succeeded, `jNeg` is fetched alongside;
the emitted sum for group "foo" of the succeeded filter over
`[jGood, jNeg]` is `45 + (-5) = 40`. -/
theorem claim_C7_witness :
    List.Forall₂ (fun (g : String × List Job) (o : List (Bucket × Nat) × Int × String) =>
      o.2.2 = g.1 ∧
      o.2.1 = (g.2.map (fun j =>
        j.status.completion_time.getD 0 - j.status.start_time.getD 0)).sum)
      [("foo", [jGood, jNeg])]
      [([(Bucket.finite 10, 1), (Bucket.finite 30, 1), (Bucket.finite 60, 2),
         (Bucket.finite 180, 2), (Bucket.finite 480, 2), (Bucket.finite 1200, 2),
         (Bucket.finite 3600, 2), (Bucket.finite 7200, 2), (Bucket.inf, 2)],
        40, "foo")] :=
  claim_C7 "app" [jGood, jNeg] [("foo", [jGood, jNeg])]
    [([(Bucket.finite 10, 1), (Bucket.finite 30, 1), (Bucket.finite 60, 2),
       (Bucket.finite 180, 2), (Bucket.finite 480, 2), (Bucket.finite 1200, 2),
       (Bucket.finite 3600, 2), (Bucket.finite 7200, 2), (Bucket.inf, 2)],
      40, "foo")] (by rfl) (by rfl)

/-! ## Helper lemmas: error propagation in the duration aggregation -/

lemma jobDuration_bad (j : Job)
    (h : j.status.completion_time = none ∨ j.status.start_time = none) :
    jobDuration j = .error "TypeError" := by
  rcases hc : j.status.completion_time with _ | c <;>
    rcases hs : j.status.start_time with _ | s <;>
    simp_all [jobDuration]

lemma addToGroups_eq (k : String) (js : List Job) (rest : List (String × List Job))
    (l : String) (j : Job) :
    addToGroups ((k, js) :: rest) l j =
      if k = l then (k, js ++ [j]) :: rest else (k, js) :: addToGroups rest l j := rfl

lemma addToGroups_mem_new : ∀ (acc : List (String × List Job)) (l : String) (j : Job),
    ∃ g ∈ addToGroups acc l j, j ∈ g.2 := by
  intro acc l j
  induction acc with
  | nil => exact ⟨(l, [j]), by simp [addToGroups]⟩
  | cons g0 rest ih =>
    obtain ⟨k, js⟩ := g0
    by_cases hk : k = l
    · refine ⟨(k, js ++ [j]), ?_, List.mem_append_right _ (List.mem_singleton_self j)⟩
      rw [addToGroups_eq, if_pos hk]
      exact List.mem_cons_self _ _
    · obtain ⟨g, hg, hj⟩ := ih
      refine ⟨g, ?_, hj⟩
      rw [addToGroups_eq, if_neg hk]
      exact List.mem_cons_of_mem _ hg

lemma addToGroups_mem_old : ∀ (acc : List (String × List Job)) (l : String) (j x : Job),
    (∃ g ∈ acc, x ∈ g.2) → ∃ g ∈ addToGroups acc l j, x ∈ g.2 := by
  intro acc l j x
  induction acc with
  | nil =>
    rintro ⟨g, hg, _⟩
    exact absurd hg (List.not_mem_nil g)
  | cons g0 rest ih =>
    obtain ⟨k, js⟩ := g0
    rintro ⟨g, hg, hx⟩
    rcases List.mem_cons.mp hg with hg0 | hgr
    · subst hg0
      by_cases hk : k = l
      · refine ⟨(k, js ++ [j]), ?_, List.mem_append_left _ hx⟩
        rw [addToGroups_eq, if_pos hk]
        exact List.mem_cons_self _ _
      · refine ⟨(k, js), ?_, hx⟩
        rw [addToGroups_eq, if_neg hk]
        exact List.mem_cons_self _ _
    · by_cases hk : k = l
      · refine ⟨g, ?_, hx⟩
        rw [addToGroups_eq, if_pos hk]
        exact List.mem_cons_of_mem _ hgr
      · obtain ⟨g2, hg2, hx2⟩ := ih ⟨g, hgr, hx⟩
        refine ⟨g2, ?_, hx2⟩
        rw [addToGroups_eq, if_neg hk]
        exact List.mem_cons_of_mem _ hg2

lemma get_app_labels_carry (jobLabel : String) : ∀ (jobs : List Job)
    (acc gs : List (String × List Job)) (x : Job),
    get_app_labels jobLabel jobs acc = .ok gs → (∃ g ∈ acc, x ∈ g.2) →
    ∃ g ∈ gs, x ∈ g.2 := by
  intro jobs
  induction jobs with
  | nil =>
    intro acc gs x h hex
    cases Except.ok.inj h
    exact hex
  | cons j rest ih =>
    intro acc gs x h hex
    unfold get_app_labels at h
    cases hlk : j.metadata.labels.bind (fun ls => lookupLabel ls jobLabel) with
    | none => rw [hlk] at h; simp at h
    | some l =>
      rw [hlk] at h
      exact ih _ gs x h (addToGroups_mem_old acc l j x hex)

lemma get_app_labels_mem (jobLabel : String) : ∀ (jobs : List Job)
    (acc gs : List (String × List Job)) (x : Job), x ∈ jobs →
    get_app_labels jobLabel jobs acc = .ok gs → ∃ g ∈ gs, x ∈ g.2 := by
  intro jobs
  induction jobs with
  | nil =>
    intro acc gs x hx
    exact absurd hx (List.not_mem_nil x)
  | cons j rest ih =>
    intro acc gs x hx h
    unfold get_app_labels at h
    cases hlk : j.metadata.labels.bind (fun ls => lookupLabel ls jobLabel) with
    | none => rw [hlk] at h; simp at h
    | some l =>
      rw [hlk] at h
      rcases List.mem_cons.mp hx with hx0 | hxr
      · subst hx0
        exact get_app_labels_carry jobLabel rest _ gs x h (addToGroups_mem_new acc l x)
      · exact ih _ gs x hxr h

lemma processGroup_err : ∀ (l : List Job) (m : List (Bucket × Nat)) (s : Int),
    (∃ j ∈ l, jobDuration j = .error "TypeError") →
    ∃ e, processGroup l m s = .error e := by
  intro l
  induction l with
  | nil =>
    rintro m s ⟨j, hj, _⟩
    exact absurd hj (List.not_mem_nil j)
  | cons j0 rest ih =>
    rintro m s ⟨j, hj, herr⟩
    rcases List.mem_cons.mp hj with hj0 | hjr
    · subst hj0
      refine ⟨"TypeError", ?_⟩
      unfold processGroup
      rw [herr]
    · cases hd : jobDuration j0 with
      | error e =>
        refine ⟨e, ?_⟩
        unfold processGroup
        rw [hd]
      | ok d =>
        obtain ⟨e, he⟩ := ih (incBuckets m (find_applicable_buckets d)) (s + d)
          ⟨j, hjr, herr⟩
        refine ⟨e, ?_⟩
        unfold processGroup
        rw [hd]
        exact he

lemma processGroups_err : ∀ (gs : List (String × List Job)),
    (∃ g ∈ gs, ∃ e0, processGroup g.2 initBuckets 0 = .error e0) →
    ∃ e, processGroups gs = .error e := by
  intro gs
  induction gs with
  | nil =>
    rintro ⟨g, hg, _⟩
    exact absurd hg (List.not_mem_nil g)
  | cons g0 rest ih =>
    obtain ⟨app, jobsg⟩ := g0
    rintro ⟨g, hg, e0, he0⟩
    rcases List.mem_cons.mp hg with hg0 | hgr
    · subst hg0
      refine ⟨e0, ?_⟩
      unfold processGroups
      rw [he0]
    · cases hpg : processGroup jobsg initBuckets 0 with
      | error e =>
        refine ⟨e, ?_⟩
        unfold processGroups
        rw [hpg]
      | ok p =>
        obtain ⟨m, s⟩ := p
        obtain ⟨e, he⟩ := ih ⟨g, hgr, e0, he0⟩
        refine ⟨e, ?_⟩
        unfold processGroups
        rw [hpg, he]

/-! ## Claim theorems: duration error handling (C1) -/

/-- C1 counterexample: with the cache holding a succeeded job `jMissing`
that lacks its completion timestamp next to a well-formed job `jGood` in
the same label group, the duration aggregation raises a TypeError: no
histogram is produced for `jGood` (nothing is produced at all) and the
scrape cycle aborts, contradicting the claimed per-job skip. -/
theorem claim_C1_counterexample :
    kubernetes_job_duration_seconds "app" [jMissing, jGood] = .error "TypeError"
    ∧ (∀ out, kubernetes_job_duration_seconds "app" [jMissing, jGood] ≠ .ok out)
    ∧ (scrape "app" 0 [] (.ok [jMissing, jGood])).2 = .error "TypeError" := by
  refine ⟨rfl, ?_, rfl⟩
  intro out h
  have h2 : (Except.error "TypeError" : Except String
      (List (List (Bucket × Nat) × Int × String))) = .ok out := h
  exact Except.noConfusion h2

/-- C1 amended: the code has no per-job recovery in the duration
aggregation. (1) If any input job is missing its start or completion
timestamp, the aggregation raises (an `.error` result): no label group's
histogram is emitted and the cycle aborts. (2) A job whose computed
duration is negative is not skipped either: it is counted in every bucket
(its duration is below every boundary) and its negative duration becomes
the emitted sum. -/
theorem claim_C1_amended :
    (∀ (jobLabel : String) (jobs : List Job),
      (∃ j ∈ jobs, j.status.completion_time = none ∨ j.status.start_time = none) →
      ∃ e, kubernetes_job_duration_seconds jobLabel jobs = .error e)
    ∧ (∀ (jobLabel : String) (job : Job) (v : String) (c s : Int),
      job.metadata.labels.bind (fun ls => lookupLabel ls jobLabel) = some v →
      job.status.completion_time = some c → job.status.start_time = some s →
      c - s < 0 →
      kubernetes_job_duration_seconds jobLabel [job] =
        .ok [(allBuckets.map (fun b => (b, 1)), c - s, v)]) := by
  constructor
  · rintro jobLabel jobs ⟨j, hj, hbad⟩
    unfold kubernetes_job_duration_seconds
    cases hg : get_app_labels jobLabel jobs [] with
    | error e => exact ⟨e, rfl⟩
    | ok groups =>
      obtain ⟨g, hgm, hjg⟩ := get_app_labels_mem jobLabel jobs [] groups j hj hg
      obtain ⟨e0, he0⟩ := processGroup_err g.2 initBuckets 0
        ⟨j, hjg, jobDuration_bad j hbad⟩
      obtain ⟨e, he⟩ := processGroups_err groups ⟨g, hgm, e0, he0⟩
      exact ⟨e, he⟩
  · intro jobLabel job v c s hv hc hs hneg
    have hga : get_app_labels jobLabel [job] [] = .ok [(v, [job])] := by
      unfold get_app_labels
      rw [hv]
      rfl
    have hd : jobDuration job = .ok (c - s) := by
      unfold jobDuration
      rw [hc, hs]
    have hfab : find_applicable_buckets (c - s) = allBuckets := by
      apply List.filter_eq_self.mpr
      intro b hb
      cases b with
      | finite n =>
        simp only [durationLtBucket, decide_eq_true_eq]
        omega
      | inf => rfl
    have hpg : processGroup [job] initBuckets 0 =
        .ok (incBuckets initBuckets (find_applicable_buckets (c - s)), c - s) := by
      unfold processGroup
      rw [hd]
      unfold processGroup
      rw [Int.zero_add]
    have hbk : incBuckets initBuckets (find_applicable_buckets (c - s)) =
        allBuckets.map (fun b => (b, 1)) := by
      rw [hfab, incBuckets_eq_map]
      unfold initBuckets
      rw [List.map_map]
      refine List.map_congr_left (fun b hb => ?_)
      simp only [Function.comp_apply]
      rw [List.count_eq_one_of_mem allBuckets_nodup hb]
    unfold kubernetes_job_duration_seconds
    rw [hga]
    show processGroups [(v, [job])] = _
    unfold processGroups
    rw [hpg, hbk]
    rfl

/-- C1 amended witness: `jMissing` alone makes the aggregation raise, and
`jNeg` (duration −5) is counted once in every bucket with sum −5. -/
theorem claim_C1_amended_witness :
    (∃ e, kubernetes_job_duration_seconds "app" [jMissing] = .error e)
    ∧ kubernetes_job_duration_seconds "app" [jNeg] =
        .ok [(allBuckets.map (fun b => (b, 1)), 95 - 100, "foo")] :=
  ⟨claim_C1_amended.1 "app" [jMissing]
      ⟨jMissing, List.mem_singleton_self _, Or.inl rfl⟩,
    claim_C1_amended.2 "app" jNeg "foo" 95 100 rfl rfl rfl (by decide)⟩

/-! ## Helper lemmas: scrape cycle and cache invariant -/

lemma retrieve_jobs_ok (jobLabel : String) (start : Int) (cache c2 : Cache)
    (fetched : Except Unit (List Job)) (js : List Job)
    (h : retrieve_jobs jobLabel start cache fetched = (c2, .ok js)) :
    js = eligible_filter c2 start := by
  simp only [retrieve_jobs] at h
  split at h
  · simp at h
  · rename_i c' heq
    simp only [Prod.mk.injEq, Except.ok.injEq] at h
    rw [← h.2, h.1]

lemma scrape_ok (jobLabel : String) (start : Int) (cache : Cache)
    (fetched : Except Unit (List Job)) (c2 : Cache) (snap : Snapshot)
    (h : scrape jobLabel start cache fetched = (c2, .ok snap)) :
    compute_families jobLabel (eligible_filter c2 start) = .ok snap := by
  unfold scrape at h
  split at h
  · simp at h
  · rename_i c' jobs heq
    simp only [Prod.mk.injEq] at h
    obtain ⟨hc, hcf⟩ := h
    subst hc
    rw [← retrieve_jobs_ok jobLabel start cache c' fetched jobs heq]
    exact hcf

lemma labelMem_lookup (ls : List (String × String)) (k : String)
    (h : labelMem ls k = true) : ∃ v, lookupLabel ls k = some v := by
  obtain ⟨p, hp, he⟩ := List.any_eq_true.mp h
  have hsome : (ls.find? (fun p => p.1 = k)).isSome := by
    rw [List.find?_isSome]
    exact ⟨p, hp, he⟩
  obtain ⟨q, hq⟩ := Option.isSome_iff_exists.mp hsome
  refine ⟨q.2, ?_⟩
  unfold lookupLabel
  rw [hq]
  rfl

lemma get_app_labels_total (jobLabel : String) : ∀ (jobs : List Job),
    (∀ j ∈ jobs, ∃ ls, j.metadata.labels = some ls ∧ labelMem ls jobLabel = true) →
    ∀ acc, ∃ gs, get_app_labels jobLabel jobs acc = .ok gs := by
  intro jobs
  induction jobs with
  | nil =>
    intro _ acc
    exact ⟨acc, rfl⟩
  | cons j rest ih =>
    intro hall acc
    obtain ⟨ls, hls, hmem⟩ := hall j (List.mem_cons_self j rest)
    obtain ⟨v, hv⟩ := labelMem_lookup ls jobLabel hmem
    have hbind : j.metadata.labels.bind (fun ls2 => lookupLabel ls2 jobLabel) = some v := by
      rw [hls]
      exact hv
    obtain ⟨gs, hgs⟩ := ih (fun x hx => hall x (List.mem_cons_of_mem j hx)) (addToGroups acc v j)
    refine ⟨gs, ?_⟩
    unfold get_app_labels
    rw [hbind]
    exact hgs

/-! ## Claim theorems: fetch failure (C8) and cache invariant (C9) -/

/-- C8. When the external list call fails, the cycle behaves exactly as if
zero jobs were fetched; and after any successful cycle ending with cache
`c1` and published snapshot `snap`, a cycle whose fetch fails leaves the
cache at `c1`, completes without an exception, and republishes exactly
`snap` (the three metric families are unchanged). -/
theorem claim_C8 (jobLabel : String) (start : Int) :
    (∀ cache, scrape jobLabel start cache (.error ()) = scrape jobLabel start cache (.ok []))
    ∧ (∀ (c0 c1 : Cache) (fetched : Except Unit (List Job)) (snap : Snapshot),
        scrape jobLabel start c0 fetched = (c1, .ok snap) →
        scrape jobLabel start c1 (.error ()) = (c1, .ok snap)) := by
  constructor
  · intro cache
    rfl
  · intro c0 c1 fetched snap h
    have hcf := scrape_ok jobLabel start c0 fetched c1 snap h
    have hrfl : scrape jobLabel start c1 (.error ()) =
        (c1, compute_families jobLabel (eligible_filter c1 start)) := rfl
    rw [hrfl, hcf]

/-- C8 witness: poll 1 fetches `jGood` successfully; poll 2 fails its
fetch and republishes the identical snapshot from the unchanged cache. -/
theorem claim_C8_witness :
    scrape "app" 0 [("g", jGood)] (.error ()) =
      ([("g", jGood)], .ok ⟨[(1, "foo")], [],
        [([(Bucket.finite 10, 0), (Bucket.finite 30, 0), (Bucket.finite 60, 1),
           (Bucket.finite 180, 1), (Bucket.finite 480, 1), (Bucket.finite 1200, 1),
           (Bucket.finite 3600, 1), (Bucket.finite 7200, 1), (Bucket.inf, 1)],
          45, "foo")]⟩) :=
  (claim_C8 "app" 0).2 [] [("g", jGood)] (.ok [jGood]) _ (by rfl)

/-- C9. The cache invariant "every stored record carries the
classification label key in its labels" is preserved by every (non-raising)
admission, and under it the label grouping over the eligible jobs (hence
the working set of all three metrics) always succeeds: no missing-key
error can occur. -/
theorem claim_C9 (jobLabel : String) (c : Cache) (hinv : cacheInv jobLabel c) :
    (∀ job c2, cache_job jobLabel c job = .ok c2 → cacheInv jobLabel c2)
    ∧ ∀ start acc, ∃ gs, get_app_labels jobLabel (eligible_filter c start) acc = .ok gs := by
  constructor
  · intro job c2 h
    cases hl : job.metadata.labels with
    | none =>
      rw [cache_job_none_eq jobLabel c job hl] at h
      split_ifs at h
      · cases Except.ok.inj h; exact hinv
      · cases Except.ok.inj h; exact hinv
    | some ls =>
      rw [cache_job_eq jobLabel c job ls hl] at h
      split_ifs at h with h1 h2 h3
      · cases Except.ok.inj h; exact hinv
      · cases Except.ok.inj h; exact hinv
      · cases Except.ok.inj h
        intro p hp
        rcases List.mem_append.mp hp with hpc | hpn
        · exact hinv p hpc
        · rw [List.mem_singleton] at hpn
          subst hpn
          exact ⟨ls, hl, h3⟩
      · cases Except.ok.inj h; exact hinv
  · intro start acc
    apply get_app_labels_total jobLabel (eligible_filter c start) ?_ acc
    intro j hj
    have hj2 : j ∈ c.map (fun p => p.2) := (List.mem_filter.mp hj).1
    obtain ⟨p, hp, hpe⟩ := List.mem_map.mp hj2
    obtain ⟨ls, hls, hmem⟩ := hinv p hp
    exact ⟨ls, hpe ▸ hls, hmem⟩

/-- C9 witness: a one-entry cache satisfying the invariant; grouping its
eligible jobs succeeds. -/
theorem claim_C9_witness :
    ∃ gs, get_app_labels "app" (eligible_filter [("g", jGood)] 0) [] = .ok gs :=
  (claim_C9 "app" [("g", jGood)] (by
    intro p hp
    rw [List.mem_singleton] at hp
    subst hp
    exact ⟨[("app", "foo")], rfl, rfl⟩)).2 0 []
